import Mathlib

/-!
Verification of the copairs core: a shallow embedding of
`src/copairs/compute_np.py` (batched pairwise statistics) and, for the sampler
module whose code is not in the sources (only its tests are), models of
`get_all_pairs` and `sample_null_pair` written from the specification.

Conventions of the embedding:
- numpy arrays become Lean lists; a matrix is a list of rows.
- Python exceptions become `Except.error` / `Option.none` results.
- Machine floats become real numbers; the IEEE NaN produced by `0/0` is
  represented by a division whose denominator is `0` (Lean's real division
  returns the junk value `0` there, and the theorems talk about the zero
  denominator explicitly).
-/

namespace Copairs

/-- Number of iterations of Python's `range(0, n, bs)` for `bs > 0`:
the ceiling of `n / bs`. -/
def numBatches (n bs : Nat) : Nat := (n + bs - 1) / bs

/-- Shallow embedding of `compute_np.pairwise_indexed`.

```
def pairwise_indexed(feats, pair_ix, batch_pairwise_op, batch_size):
    num_pairs = len(pair_ix)
    corrs = []
    for i in range(0, num_pairs, batch_size):
        x_sample = feats[pair_ix[i:i + batch_size, 0]]
        y_sample = feats[pair_ix[i:i + batch_size, 1]]
        corr = batch_pairwise_op(x_sample, y_sample)
        corrs.append(corr)
    corrs = np.concatenate(corrs)
    assert len(corrs) == num_pairs
    return corrs
```

The three `Except.error` branches model the three exceptions the Python code
can raise on its own: `range` rejecting a zero step, `np.concatenate` raising
on an empty list of arrays, and the final `assert`.  Row gathering is
totalized with a default row; the theorems that speak about gathered rows
carry an in-range hypothesis so the default is never relevant.  The slice
`pair_ix[i : i + batch_size]` at loop index `i = b * batch_size` is
`batchSlice`, and `batchResults` is the accumulated list `corrs` before
concatenation. -/
def batchSlice (pair_ix : List (Nat × Nat)) (batch_size b : Nat) :
    List (Nat × Nat) :=
  (pair_ix.drop (b * batch_size)).take batch_size

/-- The list `corrs` of per-batch results accumulated by the loop:
for each batch, the two index columns are gathered into two row matrices and
handed to the batch operation. -/
def batchResults {α β : Type} [Inhabited α] (feats : List α)
    (pair_ix : List (Nat × Nat)) (batch_pairwise_op : List α → List α → List β)
    (batch_size : Nat) : List (List β) :=
  (List.range (numBatches pair_ix.length batch_size)).map (fun b =>
    batch_pairwise_op
      ((batchSlice pair_ix batch_size b).map (fun p => feats.getD p.1 default))
      ((batchSlice pair_ix batch_size b).map (fun p => feats.getD p.2 default)))

def pairwise_indexed {α β : Type} [Inhabited α] (feats : List α)
    (pair_ix : List (Nat × Nat)) (batch_pairwise_op : List α → List α → List β)
    (batch_size : Nat) : Except String (List β) :=
  if batch_size = 0 then .error "range() arg 3 must not be zero"
  else if (batchResults feats pair_ix batch_pairwise_op batch_size).isEmpty then
    .error "need at least one array to concatenate"
  else if (batchResults feats pair_ix batch_pairwise_op batch_size).flatten.length
      = pair_ix.length then
    .ok (batchResults feats pair_ix batch_pairwise_op batch_size).flatten
  else .error "assert len(corrs) == num_pairs"

theorem numBatches_zero (bs : Nat) (hbs : 1 ≤ bs) : numBatches 0 bs = 0 := by
  unfold numBatches
  exact Nat.div_eq_of_lt (by omega)

theorem numBatches_succ (n bs : Nat) (hbs : 1 ≤ bs) (hn : 1 ≤ n) :
    numBatches n bs = numBatches (n - bs) bs + 1 := by
  unfold numBatches
  rcases Nat.lt_or_ge n bs with h | h
  · have h1 : n - bs = 0 := by omega
    rw [h1]
    have h2 : (0 + bs - 1) / bs = 0 := Nat.div_eq_of_lt (by omega)
    rw [h2]
    have h3 : n + bs - 1 = (n - 1) + bs := by omega
    rw [h3, Nat.add_div_right _ (by omega)]
    have h4 : (n - 1) / bs = 0 := Nat.div_eq_of_lt (by omega)
    omega
  · have h3 : n + bs - 1 = (n - bs + bs - 1) + bs := by omega
    rw [h3, Nat.add_div_right _ (by omega)]

theorem numBatches_pos (n bs : Nat) (hbs : 1 ≤ bs) (hn : 1 ≤ n) :
    1 ≤ numBatches n bs := by
  rw [numBatches_succ n bs hbs hn]
  omega

/-- The contiguous batches of `l` of size `bs` (the last possibly shorter),
concatenated in order, reassemble `l`. -/
theorem chunks_join {α : Type} (bs : Nat) (hbs : 1 ≤ bs) (l : List α) :
    ((List.range (numBatches l.length bs)).map
      (fun b => (l.drop (b * bs)).take bs)).flatten = l := by
  by_cases h0 : l = []
  · subst h0
    simp [numBatches_zero bs hbs]
  · have hn : 1 ≤ l.length := by
      cases l with
      | nil => exact absurd rfl h0
      | cons a t => simp
    have hlt : (l.drop bs).length < l.length := by
      rw [List.length_drop]; omega
    have ih := chunks_join bs hbs (l.drop bs)
    rw [numBatches_succ _ bs hbs hn, List.range_succ_eq_map]
    simp only [List.map_cons, List.map_map, List.flatten_cons, Nat.zero_mul,
      List.drop_zero]
    have harg : ((List.range (numBatches (l.length - bs) bs)).map
        ((fun b => (l.drop (b * bs)).take bs) ∘ Nat.succ)) =
        ((List.range (numBatches (l.drop bs).length bs)).map
          (fun b => ((l.drop bs).drop (b * bs)).take bs)) := by
      rw [List.length_drop]
      apply List.map_congr_left
      intro b _
      simp only [Function.comp_apply, List.drop_drop, Nat.succ_mul]
      rw [Nat.add_comm]
    rw [harg, ih, List.take_append_drop]
termination_by l.length

/-- Variant of `chunks_join` under a map: batching commutes with a per-pair map. -/
theorem chunks_join_map {α β : Type} (bs : Nat) (hbs : 1 ≤ bs) (l : List α)
    (g : α → β) :
    ((List.range (numBatches l.length bs)).map
      (fun b => ((l.drop (b * bs)).take bs).map g)).flatten = l.map g := by
  have h := chunks_join bs hbs (l.map g)
  rw [List.length_map] at h
  calc ((List.range (numBatches l.length bs)).map
        (fun b => ((l.drop (b * bs)).take bs).map g)).flatten
      = ((List.range (numBatches l.length bs)).map
        (fun b => ((l.map g).drop (b * bs)).take bs)).flatten := by
        apply congrArg
        apply List.map_congr_left
        intro b _
        rw [List.map_take, List.map_drop]
    _ = l.map g := h

/-- When the batch operation works row-by-row (`zipWith f`), every batch
result is the per-pair map over the batch slice. -/
theorem batchResults_zipWith {α β : Type} [Inhabited α] (feats : List α)
    (pair_ix : List (Nat × Nat)) (f : α → α → β) (bs : Nat) :
    batchResults feats pair_ix (fun xs ys => List.zipWith f xs ys) bs =
      (List.range (numBatches pair_ix.length bs)).map (fun b =>
        (batchSlice pair_ix bs b).map
          (fun p => f (feats.getD p.1 default) (feats.getD p.2 default))) := by
  unfold batchResults
  apply List.map_congr_left
  intro b _
  show List.zipWith f _ _ = _
  rw [List.zipWith_map, List.zipWith_same]

/-- For a positive batch size, the batch list is empty iff there are no pairs. -/
theorem batchResults_isEmpty {α β : Type} [Inhabited α] (feats : List α)
    (pair_ix : List (Nat × Nat)) (op : List α → List α → List β) (bs : Nat)
    (hbs : 1 ≤ bs) :
    (batchResults feats pair_ix op bs).isEmpty = pair_ix.isEmpty := by
  unfold batchResults
  cases hp : pair_ix with
  | nil => simp [numBatches_zero bs hbs]
  | cons q t =>
    have h1 : 1 ≤ pair_ix.length := by rw [hp]; simp
    have h2 := numBatches_pos pair_ix.length bs hbs h1
    rw [← hp]
    rcases Nat.exists_eq_add_of_le h2 with ⟨k, hk⟩
    rw [hk, List.isEmpty_eq_false.mpr (by simp [List.range_succ_eq_map])]
    rw [hp]
    simp

/-- For a positive batch size and a length-preserving batch operation, the
concatenated batch results have exactly one entry per requested pair. -/
theorem batchResults_flatten_length {α β : Type} [Inhabited α] (feats : List α)
    (pair_ix : List (Nat × Nat)) (op : List α → List α → List β) (bs : Nat)
    (hbs : 1 ≤ bs)
    (hop : ∀ xs ys : List α, xs.length = ys.length → (op xs ys).length = xs.length) :
    (batchResults feats pair_ix op bs).flatten.length = pair_ix.length := by
  rw [List.length_flatten]
  unfold batchResults
  rw [List.map_map]
  have hcongr : ((List.range (numBatches pair_ix.length bs)).map
      (List.length ∘ fun b => op
        ((batchSlice pair_ix bs b).map (fun p => feats.getD p.1 default))
        ((batchSlice pair_ix bs b).map (fun p => feats.getD p.2 default)))) =
      ((List.range (numBatches pair_ix.length bs)).map
        (fun b => (batchSlice pair_ix bs b).length)) := by
    apply List.map_congr_left
    intro b _
    simp only [Function.comp_apply]
    rw [hop _ _ (by rw [List.length_map, List.length_map]), List.length_map]
  rw [hcongr]
  have h := congrArg List.length (chunks_join bs hbs pair_ix)
  rw [List.length_flatten, List.map_map] at h
  exact h

/-- Full characterization of `pairwise_indexed` for a row-wise batch
operation and a positive batch size: it fails on an empty pair list (the
`np.concatenate` exception) and otherwise returns the per-pair map, in the
original pair order and independently of the batch size. -/
theorem pairwise_indexed_rowwise {α β : Type} [Inhabited α] (feats : List α)
    (pair_ix : List (Nat × Nat)) (f : α → α → β) (bs : Nat) (hbs : 1 ≤ bs) :
    pairwise_indexed feats pair_ix (fun xs ys => List.zipWith f xs ys) bs =
      if pair_ix.isEmpty then .error "need at least one array to concatenate"
      else .ok (pair_ix.map
        (fun p => f (feats.getD p.1 default) (feats.getD p.2 default))) := by
  unfold pairwise_indexed
  rw [if_neg (by omega), batchResults_isEmpty feats pair_ix _ bs hbs]
  cases hp : pair_ix with
  | nil => simp
  | cons q t =>
    rw [← hp]
    have hne : pair_ix.isEmpty = false := by rw [hp]; simp
    rw [hne]
    simp only [Bool.false_eq_true, if_false]
    have hflat : (batchResults feats pair_ix
        (fun xs ys => List.zipWith f xs ys) bs).flatten = pair_ix.map
          (fun p => f (feats.getD p.1 default) (feats.getD p.2 default)) := by
      rw [batchResults_zipWith]
      unfold batchSlice
      exact chunks_join_map bs hbs pair_ix _
    rw [hflat, List.length_map, if_pos rfl]

noncomputable section

/-- Row mean, `x.mean(axis=1)` for one row. -/
def rowMean (xs : List ℝ) : ℝ := xs.sum / xs.length

/-- Mean-centered row, `x - x.mean(axis=1, keepdims=True)` for one row. -/
def centered (xs : List ℝ) : List ℝ := xs.map (fun v => v - rowMean xs)

/-- Row-wise product-and-sum, `(a * b).sum(axis=1)` for one row pair. -/
def dotRow (xs ys : List ℝ) : ℝ := (List.zipWith (fun a b => a * b) xs ys).sum

/-- Row sum of squares, `(a**2).sum(axis=1)` for one row. -/
def sumSq (xs : List ℝ) : ℝ := (xs.map (fun v => v ^ 2)).sum

/-- One row of `compute_np.pairwise_corr`: `numer / np.sqrt(denom)` where
`numer = (x_center * y_center).sum(axis=1)` and
`denom = (x_center**2).sum(axis=1) * (y_center**2).sum(axis=1)`. -/
def corrRow (x y : List ℝ) : ℝ :=
  dotRow (centered x) (centered y) /
    Real.sqrt (sumSq (centered x) * sumSq (centered y))

/-- Shallow embedding of `compute_np.pairwise_corr`: Pearson correlation of
the two batch matrices in a paired row-wise fashion. -/
def pairwise_corr (x_sample y_sample : List (List ℝ)) : List ℝ :=
  List.zipWith corrRow x_sample y_sample

/-- One row of `compute_np.pairwise_cosine`: each row is divided by its
`np.linalg.norm` (the square root of its sum of squares), then the two
normalized rows are multiplied and summed. -/
def cosineRow (x y : List ℝ) : ℝ :=
  dotRow (x.map (fun v => v / Real.sqrt (sumSq x)))
    (y.map (fun v => v / Real.sqrt (sumSq y)))

/-- Shallow embedding of `compute_np.pairwise_cosine`. -/
def pairwise_cosine (x_sample y_sample : List (List ℝ)) : List ℝ :=
  List.zipWith cosineRow x_sample y_sample

/-- The Pearson formula exactly as the spec words it: the row-wise dot
product of the centered vectors divided by the product of the two centered
vectors' L2 norms. -/
def pearsonSpec (x y : List ℝ) : ℝ :=
  dotRow (centered x) (centered y) /
    (Real.sqrt (sumSq (centered x)) * Real.sqrt (sumSq (centered y)))

end

theorem sumSq_nonneg (xs : List ℝ) : 0 ≤ sumSq xs := by
  unfold sumSq
  apply List.sum_nonneg
  intro a ha
  rcases List.mem_map.mp ha with ⟨v, _, rfl⟩
  exact sq_nonneg v

theorem getD_zipWith {α β γ : Type} (f : α → β → γ) (x : List α) (y : List β)
    (k : Nat) (hx : k < x.length) (hy : k < y.length) (d : γ) (dx : α) (dy : β) :
    (List.zipWith f x y).getD k d = f (x.getD k dx) (y.getD k dy) := by
  rw [List.getD_eq_getElem _ _ (by rw [List.length_zipWith]; omega),
    List.getD_eq_getElem _ _ hx, List.getD_eq_getElem _ _ hy]
  exact List.getElem_zipWith

/-- A row whose values are all equal is centered to the all-zero row, so its
centered sum of squares vanishes: this is the zero-variance situation. -/
theorem sumSq_centered_eq_zero (xs : List ℝ) (c : ℝ) (h : ∀ v ∈ xs, v = c) :
    sumSq (centered xs) = 0 := by
  by_cases hx : xs = []
  · subst hx
    simp [sumSq, centered]
  · have hrep : xs = List.replicate xs.length c :=
      List.eq_replicate_iff.mpr ⟨rfl, h⟩
    have hlen : (xs.length : ℝ) ≠ 0 := by
      have : xs.length ≠ 0 := by
        intro h0
        exact hx (List.length_eq_zero.mp h0)
      exact_mod_cast this
    have hmean : rowMean xs = c := by
      unfold rowMean
      rw [hrep, List.sum_replicate, List.length_replicate, nsmul_eq_mul,
        mul_comm, mul_div_assoc, div_self hlen, mul_one]
    have hcent : centered xs = List.replicate xs.length 0 := by
      unfold centered
      rw [hmean]
      calc xs.map (fun v => v - c)
          = (List.replicate xs.length c).map (fun v => v - c) := by rw [← hrep]
        _ = List.replicate xs.length 0 := by rw [List.map_replicate]; simp
    rw [hcent]
    unfold sumSq
    rw [List.map_replicate]
    simp

theorem dotRow_comm (xs ys : List ℝ) : dotRow xs ys = dotRow ys xs := by
  unfold dotRow
  rw [List.zipWith_comm_of_comm _ mul_comm]

theorem corrRow_comm (x y : List ℝ) : corrRow x y = corrRow y x := by
  unfold corrRow
  rw [dotRow_comm, mul_comm]

theorem sumSq_map_mul (c : ℝ) (xs : List ℝ) :
    sumSq (xs.map (fun v => c * v)) = c ^ 2 * sumSq xs := by
  unfold sumSq
  rw [List.map_map]
  have hfun : ((fun v => v ^ 2) ∘ fun v : ℝ => c * v) = fun v => c ^ 2 * v ^ 2 := by
    funext v
    simp [mul_pow]
  rw [hfun]
  exact List.sum_map_mul_left xs (fun v => v ^ 2) (c ^ 2)

/-- Scaling one row by a positive constant does not change its cosine score:
both the row and its L2 norm scale by `c`, and the quotient cancels. -/
theorem cosineRow_scale (c : ℝ) (hc : 0 < c) (x y : List ℝ) :
    cosineRow (x.map (fun v => c * v)) y = cosineRow x y := by
  unfold cosineRow
  congr 1
  rw [sumSq_map_mul, Real.sqrt_mul (sq_nonneg c), Real.sqrt_sq hc.le,
    List.map_map]
  apply List.map_congr_left
  intro v _
  simp only [Function.comp_apply]
  rw [mul_div_mul_left _ _ (ne_of_gt hc)]

/-- Column names of the dataset. -/
abbrev Col := String

/-- Scalar cell values of the dataset (categorical or numeric codes). -/
abbrev Val := Int

/-- A dataset row with no missing cells: a total assignment of values to
column names, as used by the pair enumerator. -/
abbrev Row := Col → Val

/-- Row `i` of the dataset, with an all-zero default row that is never
consulted for `i < rows.length`. -/
def rowAt (rows : List Row) (i : Nat) : Row := rows.getD i (fun _ => 0)

/-- Modelled from the spec: the Column Index, the per-column inverted index
mapping a value to the ids of the rows carrying it. -/
def columnIndex (rows : List Row) (c : Col) (v : Val) : List Nat :=
  (List.range rows.length).filter (fun i => decide (rowAt rows i c = v))

/-- The group key of a row: the ordered tuple of its groupby-column values. -/
def rowKey (groupby : List Col) (r : Row) : List Val := groupby.map r

/-- Modelled from the spec: the group keys occurring in the dataset, one per
distinct groupby-value tuple. -/
def groupKeys (rows : List Row) (groupby : List Col) : List (List Val) :=
  ((List.range rows.length).map (fun i => rowKey groupby (rowAt rows i))).dedup

/-- Modelled from the spec: the partition of candidate rows for a group key,
computed by set intersection, across the groupby columns, of the Column
Index entries for the key's components. -/
def partitionIds (rows : List Row) (groupby : List Col) (K : List Val) :
    List Nat :=
  (List.zip groupby K).foldl
    (fun acc cv => acc.filter (fun i => (columnIndex rows cv.1 cv.2).contains i))
    (List.range rows.length)

/-- All ordered id pairs over a pool of row ids (the cross product). -/
def pairsOf (P : List Nat) : List (Nat × Nat) :=
  P.flatMap (fun i => P.map (fun j => (i, j)))

/-- Canonicalized (smaller id first) intra-partition pairs. -/
def allPairs (P : List Nat) : List (Nat × Nat) :=
  (pairsOf P).filter (fun p => decide (p.1 < p.2))

/-- The intra-partition pairs sharing the value of column `c`. -/
def samePairs (rows : List Row) (c : Col) (P : List Nat) : List (Nat × Nat) :=
  (pairsOf P).filter (fun p => decide (rowAt rows p.1 c = rowAt rows p.2 c))

/-- Modelled from the spec: the valid pairs of one partition — all
intra-partition canonical pairs minus the union, over each diffby column, of
the same-value pairs — deduplicated. -/
def validPairs (rows : List Row) (diffby : List Col) (P : List Nat) :
    List (Nat × Nat) :=
  ((allPairs P).filter
    (fun p => !(diffby.any (fun c => (samePairs rows c P).contains p)))).dedup

/-- Modelled from the spec: the Pairs-by-Group mapping — for each group key,
the valid pairs of its partition; a key whose partition yields no pairs is
absent from the result, never present with an empty list. -/
def allPairsCore (rows : List Row) (groupby diffby : List Col) :
    List (List Val × List (Nat × Nat)) :=
  (groupKeys rows groupby).filterMap (fun K =>
    if (validPairs rows diffby (partitionIds rows groupby K)).isEmpty then none
    else some (K, validPairs rows diffby (partitionIds rows groupby K)))

/-- Modelled from the spec (the sampler module is absent from the sources;
only its tests are present): `Sampler.get_all_pairs(groupby, diffby)`.
A non-disjoint groupby/diffby request fails up front with the configuration
error, before any index or partition work; otherwise the Pairs-by-Group
mapping is returned. -/
def get_all_pairs (rows : List Row) (groupby diffby : List Col) :
    Except String (List (List Val × List (Nat × Nat))) :=
  if groupby.any (fun c => diffby.contains c) then
    .error "groupby and diffby must be disjoint lists"
  else .ok (allPairsCore rows groupby diffby)

/-- The flattened pair set of a Pairs-by-Group mapping
(`sum(vals.values(), [])` in the tests). -/
def flatPairs (m : List (List Val × List (Nat × Nat))) : List (Nat × Nat) :=
  m.flatMap (fun e => e.2)

/-- Shallow embedding of `tests.get_naive_pairs`: the full cross product of
row ids (pandas `merge(how='cross')` of the dataset with itself) filtered by
the conjunction of groupby equalities and diffby inequalities. -/
def get_naive_pairs (rows : List Row) (groupby diffby : List Col) :
    List (Nat × Nat) :=
  (pairsOf (List.range rows.length)).filter (fun p =>
    groupby.all (fun c => decide (rowAt rows p.1 c = rowAt rows p.2 c)) &&
    diffby.all (fun c => decide (rowAt rows p.1 c ≠ rowAt rows p.2 c)))

/-- A dataset row for the null-pair sampler: cells may be missing
(`none` models NaN). -/
abbrev NRow := Col → Option Val

/-- Row `i` of a dataset with missing cells. -/
def nrowAt (rows : List NRow) (i : Nat) : NRow := rows.getD i (fun _ => none)

/-- Modelled from the spec: the candidate pool for one null-pair draw — the
ids of the rows carrying a non-missing value in every requested column; rows
with a missing value in any requested column are excluded up front. -/
def nullPool (rows : List NRow) (diffby : List Col) : List Nat :=
  (List.range rows.length).filter (fun i =>
    diffby.all (fun c => (nrowAt rows i c).isSome))

/-- The validity check of a candidate null pair: two distinct row ids whose
values are present and pairwise different in every requested column. -/
def validNullPair (rows : List NRow) (diffby : List Col) (p : Nat × Nat) :
    Bool :=
  decide (p.1 ≠ p.2) && diffby.all (fun c =>
    match nrowAt rows p.1 c, nrowAt rows p.2 c with
    | some a, some b => decide (a ≠ b)
    | _, _ => false)

/-- Modelled from the spec: `Sampler.sample_null_pair(diffby_cols)`.  The
random generator is supplied as a finite stream of draws; each draw selects
two candidate rows from the non-missing pool, and the first candidate pair
passing the validity check is returned.  The stream's length is the bounded
retry budget: when no draw yields a valid pair the operation fails
explicitly with `none` instead of looping. -/
def sample_null_pair (rows : List NRow) (diffby : List Col)
    (draws : List (Nat × Nat)) : Option (Nat × Nat) :=
  (draws.map (fun d =>
    ((nullPool rows diffby).getD (d.1 % (nullPool rows diffby).length) 0,
     (nullPool rows diffby).getD (d.2 % (nullPool rows diffby).length) 0))).find?
    (validNullPair rows diffby)

theorem mem_foldl_filter {α β : Type} (f : β → α → Bool) (l : List β)
    (init : List α) (x : α) :
    x ∈ l.foldl (fun acc b => acc.filter (f b)) init ↔
      x ∈ init ∧ ∀ b ∈ l, f b x = true := by
  induction l generalizing init with
  | nil => simp
  | cons b t ih =>
    rw [List.foldl_cons, ih, List.mem_filter]
    constructor
    · rintro ⟨⟨hx, hb⟩, ht⟩
      refine ⟨hx, ?_⟩
      rintro b' hb'
      rcases List.mem_cons.mp hb' with rfl | hb'
      · exact hb
      · exact ht b' hb'
    · rintro ⟨hx, hall⟩
      exact ⟨⟨hx, hall b (List.mem_cons_self b t)⟩,
        fun b' hb' => hall b' (List.mem_cons_of_mem b hb')⟩

theorem mem_columnIndex (rows : List Row) (c : Col) (v : Val) (i : Nat) :
    i ∈ columnIndex rows c v ↔ i < rows.length ∧ rowAt rows i c = v := by
  simp [columnIndex, List.mem_filter, List.mem_range]

theorem zip_map_self {α β : Type} (l : List α) (f : α → β) :
    List.zip l (l.map f) = l.map (fun a => (a, f a)) := by
  induction l with
  | nil => rfl
  | cons a t ih => simp [ih]

theorem mem_partitionIds (rows : List Row) (groupby : List Col) (K : List Val)
    (i : Nat) :
    i ∈ partitionIds rows groupby K ↔
      i < rows.length ∧ ∀ cv ∈ List.zip groupby K, rowAt rows i cv.1 = cv.2 := by
  unfold partitionIds
  rw [mem_foldl_filter]
  simp only [List.mem_range]
  constructor
  · rintro ⟨h1, h2⟩
    refine ⟨h1, fun cv hcv => ?_⟩
    have hmem : i ∈ columnIndex rows cv.1 cv.2 := by simpa using h2 cv hcv
    exact ((mem_columnIndex rows cv.1 cv.2 i).mp hmem).2
  · rintro ⟨h1, h2⟩
    refine ⟨h1, fun cv hcv => ?_⟩
    have hmem : i ∈ columnIndex rows cv.1 cv.2 :=
      (mem_columnIndex rows cv.1 cv.2 i).mpr ⟨h1, h2 cv hcv⟩
    simpa using hmem

/-- A row always belongs to the partition of its own group key, and the
partition of row `i`'s key holds exactly the rows agreeing with row `i` on
every groupby column. -/
theorem mem_partition_key (rows : List Row) (groupby : List Col) (i j : Nat) :
    j ∈ partitionIds rows groupby (rowKey groupby (rowAt rows i)) ↔
      j < rows.length ∧ ∀ c ∈ groupby, rowAt rows j c = rowAt rows i c := by
  rw [mem_partitionIds]
  unfold rowKey
  rw [zip_map_self]
  constructor
  · rintro ⟨h1, h2⟩
    exact ⟨h1, fun c hc =>
      h2 (c, rowAt rows i c) (List.mem_map.mpr ⟨c, hc, rfl⟩)⟩
  · rintro ⟨h1, h2⟩
    refine ⟨h1, ?_⟩
    rintro cv hcv
    rcases List.mem_map.mp hcv with ⟨c, hc, rfl⟩
    exact h2 c hc

theorem mem_groupKeys (rows : List Row) (g : List Col) (K : List Val) :
    K ∈ groupKeys rows g ↔
      ∃ i, i < rows.length ∧ K = rowKey g (rowAt rows i) := by
  unfold groupKeys
  rw [List.mem_dedup, List.mem_map]
  constructor
  · rintro ⟨i, hi, rfl⟩
    exact ⟨i, List.mem_range.mp hi, rfl⟩
  · rintro ⟨i, hi, rfl⟩
    exact ⟨i, List.mem_range.mpr hi, rfl⟩

theorem mem_pairsOf (P : List Nat) (i j : Nat) :
    (i, j) ∈ pairsOf P ↔ i ∈ P ∧ j ∈ P := by
  unfold pairsOf
  rw [List.mem_flatMap]
  constructor
  · rintro ⟨a, ha, hm⟩
    rcases List.mem_map.mp hm with ⟨b, hb, heq⟩
    cases heq
    exact ⟨ha, hb⟩
  · rintro ⟨hi, hj⟩
    exact ⟨i, hi, List.mem_map.mpr ⟨j, hj, rfl⟩⟩

theorem mem_samePairs (rows : List Row) (c : Col) (P : List Nat) (i j : Nat) :
    (i, j) ∈ samePairs rows c P ↔
      i ∈ P ∧ j ∈ P ∧ rowAt rows i c = rowAt rows j c := by
  unfold samePairs
  rw [List.mem_filter, mem_pairsOf]
  simp [and_assoc]

theorem mem_allPairs (P : List Nat) (i j : Nat) :
    (i, j) ∈ allPairs P ↔ i ∈ P ∧ j ∈ P ∧ i < j := by
  unfold allPairs
  rw [List.mem_filter, mem_pairsOf]
  simp [and_assoc]

theorem mem_validPairs (rows : List Row) (d : List Col) (P : List Nat)
    (i j : Nat) :
    (i, j) ∈ validPairs rows d P ↔
      i ∈ P ∧ j ∈ P ∧ i < j ∧ ∀ c ∈ d, rowAt rows i c ≠ rowAt rows j c := by
  unfold validPairs
  rw [List.mem_dedup, List.mem_filter, mem_allPairs]
  constructor
  · rintro ⟨⟨hi, hj, hij⟩, hno⟩
    simp only [Bool.not_eq_true', List.any_eq_false] at hno
    refine ⟨hi, hj, hij, fun c hc hesame => ?_⟩
    have hmem : (i, j) ∈ samePairs rows c P :=
      (mem_samePairs rows c P i j).mpr ⟨hi, hj, hesame⟩
    have hcontains : (samePairs rows c P).contains (i, j) = true := by
      simpa using hmem
    exact hno c hc hcontains
  · rintro ⟨hi, hj, hij, hdiff⟩
    refine ⟨⟨hi, hj, hij⟩, ?_⟩
    simp only [Bool.not_eq_true', List.any_eq_false]
    intro c hc
    have hnm : (i, j) ∉ samePairs rows c P := by
      intro hmem
      rcases (mem_samePairs rows c P i j).mp hmem with ⟨_, _, hsame⟩
      exact hdiff c hc hsame
    simpa using hnm

theorem mem_flatPairs_core (rows : List Row) (g d : List Col) (p : Nat × Nat) :
    p ∈ flatPairs (allPairsCore rows g d) ↔
      ∃ K ∈ groupKeys rows g,
        p ∈ validPairs rows d (partitionIds rows g K) := by
  unfold flatPairs allPairsCore
  rw [List.mem_flatMap]
  constructor
  · rintro ⟨e, he, hp⟩
    rcases List.mem_filterMap.mp he with ⟨K, hK, hfK⟩
    by_cases hemp : (validPairs rows d (partitionIds rows g K)).isEmpty
    · rw [if_pos hemp] at hfK
      cases hfK
    · rw [if_neg hemp] at hfK
      cases hfK
      exact ⟨K, hK, hp⟩
  · rintro ⟨K, hK, hp⟩
    refine ⟨(K, validPairs rows d (partitionIds rows g K)), ?_, hp⟩
    apply List.mem_filterMap.mpr
    refine ⟨K, hK, ?_⟩
    rw [if_neg ?_]
    intro hemp
    rw [List.isEmpty_iff] at hemp
    rw [hemp] at hp
    cases hp

/-- Full characterization of the flattened pair set of the enumerator:
exactly the canonical pairs of in-range rows agreeing on every groupby
column and differing on every diffby column. -/
theorem mem_flatPairs (rows : List Row) (g d : List Col) (i j : Nat) :
    (i, j) ∈ flatPairs (allPairsCore rows g d) ↔
      i < rows.length ∧ j < rows.length ∧ i < j ∧
      (∀ c ∈ g, rowAt rows i c = rowAt rows j c) ∧
      (∀ c ∈ d, rowAt rows i c ≠ rowAt rows j c) := by
  rw [mem_flatPairs_core]
  constructor
  · rintro ⟨K, hK, hp⟩
    rw [mem_validPairs] at hp
    obtain ⟨hiP, hjP, hij, hdiff⟩ := hp
    rcases (mem_groupKeys rows g K).mp hK with ⟨i0, hi0, rfl⟩
    rw [mem_partition_key] at hiP hjP
    obtain ⟨hiN, hieq⟩ := hiP
    obtain ⟨hjN, hjeq⟩ := hjP
    exact ⟨hiN, hjN, hij,
      fun c hc => (hieq c hc).trans (hjeq c hc).symm, hdiff⟩
  · rintro ⟨hiN, hjN, hij, heq, hdiff⟩
    refine ⟨rowKey g (rowAt rows i), ?_, ?_⟩
    · exact (mem_groupKeys rows g _).mpr ⟨i, hiN, rfl⟩
    · rw [mem_validPairs]
      refine ⟨?_, ?_, hij, hdiff⟩
      · rw [mem_partition_key]
        exact ⟨hiN, fun c hc => rfl⟩
      · rw [mem_partition_key]
        exact ⟨hjN, fun c hc => (heq c hc).symm⟩

theorem mem_get_naive_pairs (rows : List Row) (g d : List Col) (i j : Nat) :
    (i, j) ∈ get_naive_pairs rows g d ↔
      i < rows.length ∧ j < rows.length ∧
      (∀ c ∈ g, rowAt rows i c = rowAt rows j c) ∧
      (∀ c ∈ d, rowAt rows i c ≠ rowAt rows j c) := by
  unfold get_naive_pairs
  rw [List.mem_filter, mem_pairsOf]
  simp [List.mem_range, and_assoc]

/-- C1: for every dataset and every disjoint (groupby, diffby) request,
`get_all_pairs` succeeds and its flattened pair collection contains exactly
the unordered pairs of distinct row ids (canonicalized smaller-id-first)
that agree on every groupby column and differ on every diffby column — as a
set, the same pairs as the naive full cross-product filter
`get_naive_pairs` over the same columns. -/
theorem get_all_pairs_eq_naive (rows : List Row) (groupby diffby : List Col)
    (hdisj : ∀ c ∈ groupby, c ∉ diffby) :
    ∃ m, get_all_pairs rows groupby diffby = .ok m ∧
      (∀ p ∈ flatPairs m, p.1 < p.2) ∧
      (∀ i j : Nat, i < j →
        ((i, j) ∈ flatPairs m ↔
          (i, j) ∈ get_naive_pairs rows groupby diffby)) := by
  refine ⟨allPairsCore rows groupby diffby, ?_, ?_, ?_⟩
  · unfold get_all_pairs
    have hfalse : groupby.any (fun c => diffby.contains c) = false := by
      rw [List.any_eq_false]
      intro c hc
      simpa using hdisj c hc
    simp only [hfalse, Bool.false_eq_true, if_false]
  · rintro ⟨i, j⟩ hp
    exact ((mem_flatPairs rows groupby diffby i j).mp hp).2.2.1
  · intro i j hij
    rw [mem_flatPairs, mem_get_naive_pairs]
    constructor
    · rintro ⟨h1, h2, _, h4, h5⟩
      exact ⟨h1, h2, h4, h5⟩
    · rintro ⟨h1, h2, h4, h5⟩
      exact ⟨h1, h2, hij, h4, h5⟩

/-- Witness for C1: the enumerator/naive-filter equivalence instantiated on
a concrete two-row dataset and a concrete disjoint request. -/
theorem get_all_pairs_eq_naive_witness :
    (∀ c ∈ ["c"], c ∉ ["p", "w"]) ∧
    ∃ m, get_all_pairs [fun _ => 1, fun _ => 2] ["c"] ["p", "w"] = .ok m ∧
      (∀ p ∈ flatPairs m, p.1 < p.2) ∧
      (∀ i j : Nat, i < j →
        ((i, j) ∈ flatPairs m ↔
          (i, j) ∈ get_naive_pairs [fun _ => 1, fun _ => 2] ["c"] ["p", "w"])) :=
  ⟨by decide, get_all_pairs_eq_naive [fun _ => 1, fun _ => 2] ["c"] ["p", "w"]
    (by decide)⟩

/-- C2 counterexample: with an empty pair-index array (M = 0) the function
does not return a length-0 score sequence — the concatenation of the empty
batch list fails — so the original claim is false at M = 0. -/
theorem pairwise_indexed_length_counterexample :
    pairwise_indexed ([5] : List Nat) ([] : List (Nat × Nat))
      (fun xs ys => List.zipWith (fun a b => a + b) xs ys) 4 =
      .error "need at least one array to concatenate" := rfl

/-- C2 (amended): whenever `pairwise_indexed` returns a score sequence its
length equals M exactly — a length mismatch in the concatenated batches is a
fatal aggregation-integrity error, not a wrong-length return — and for every
M ≥ 1, positive batch size, in-range pair indices and length-preserving
batch operation it does return a sequence of length M.  (Only the M = 0 case
of the original claim fails; see the counterexample.) -/
theorem pairwise_indexed_length (α β : Type) [Inhabited α] (feats : List α)
    (pair_ix : List (Nat × Nat)) (op : List α → List α → List β) (bs : Nat) :
    (∀ s, pairwise_indexed feats pair_ix op bs = .ok s →
      s.length = pair_ix.length) ∧
    (1 ≤ pair_ix.length → 1 ≤ bs →
      (∀ p ∈ pair_ix, p.1 < feats.length ∧ p.2 < feats.length) →
      (∀ xs ys : List α, xs.length = ys.length → (op xs ys).length = xs.length) →
      ∃ s, pairwise_indexed feats pair_ix op bs = .ok s ∧
        s.length = pair_ix.length) := by
  constructor
  · intro s hs
    unfold pairwise_indexed at hs
    by_cases h0 : bs = 0
    · rw [if_pos h0] at hs
      cases hs
    · rw [if_neg h0] at hs
      by_cases hemp : (batchResults feats pair_ix op bs).isEmpty = true
      · rw [if_pos hemp] at hs
        cases hs
      · rw [if_neg hemp] at hs
        by_cases hlen : (batchResults feats pair_ix op bs).flatten.length
            = pair_ix.length
        · rw [if_pos hlen] at hs
          cases hs
          exact hlen
        · rw [if_neg hlen] at hs
          cases hs
  · intro hM hbs hix hop
    refine ⟨(batchResults feats pair_ix op bs).flatten, ?_,
      batchResults_flatten_length feats pair_ix op bs hbs hop⟩
    unfold pairwise_indexed
    rw [if_neg (by omega)]
    have hemp : ¬ ((batchResults feats pair_ix op bs).isEmpty = true) := by
      rw [batchResults_isEmpty feats pair_ix op bs hbs]
      intro hcontr
      rw [List.isEmpty_iff] at hcontr
      rw [hcontr] at hM
      simp at hM
    rw [if_neg hemp,
      if_pos (batchResults_flatten_length feats pair_ix op bs hbs hop)]

/-- Witness for C2 (amended) at a concrete feature matrix, three in-range
pairs, a row-wise product operation, and batch size 2. -/
theorem pairwise_indexed_length_witness :
    ∃ s, pairwise_indexed ([3, 7] : List Nat) [(0, 1), (1, 0), (1, 1)]
      (fun xs ys => List.zipWith (fun a b => a * b) xs ys) 2 = .ok s ∧
      s.length = 3 := by
  have h := (pairwise_indexed_length Nat Nat [3, 7] [(0, 1), (1, 0), (1, 1)]
    (fun xs ys => List.zipWith (fun a b => a * b) xs ys) 2).2
    (by decide) (by decide) (by decide)
    (fun xs ys hl => by rw [List.length_zipWith, hl, Nat.min_self])
  simpa using h

/-- C3: each row of `pairwise_corr` is exactly the spec's Pearson formula:
the dot product of the two mean-centered rows divided by the product of
their centered L2 norms (`pearsonSpec`). -/
theorem pairwise_corr_rows (x y : List (List ℝ)) (k : Nat)
    (hx : k < x.length) (hy : k < y.length) :
    (pairwise_corr x y).getD k 0 = pearsonSpec (x.getD k []) (y.getD k []) := by
  unfold pairwise_corr
  rw [getD_zipWith corrRow x y k hx hy 0 [] []]
  unfold corrRow pearsonSpec
  rw [Real.sqrt_mul (sumSq_nonneg _)]

/-- Witness for C3 on a concrete pair of one-row batches. -/
theorem pairwise_corr_rows_witness :
    0 < ([[1, 2]] : List (List ℝ)).length ∧
    0 < ([[3, 5]] : List (List ℝ)).length ∧
    (pairwise_corr [[1, 2]] [[3, 5]]).getD 0 0 =
      pearsonSpec (([[1, 2]] : List (List ℝ)).getD 0 [])
        (([[3, 5]] : List (List ℝ)).getD 0 []) :=
  ⟨by decide, by decide, pairwise_corr_rows [[1, 2]] [[3, 5]] 0
    (by decide) (by decide)⟩

/-- C4: every pair returned by `sample_null_pair` has two distinct row ids,
both drawn from the non-missing candidate pool, and for every requested
column the two rows hold different values, both non-missing.  Rows with a
missing value in a requested column are excluded from `nullPool` and so are
never treated as differing. -/
theorem sample_null_pair_valid (rows : List NRow) (diffby : List Col)
    (draws : List (Nat × Nat)) (id1 id2 : Nat)
    (h : sample_null_pair rows diffby draws = some (id1, id2)) :
    id1 ≠ id2 ∧ id1 ∈ nullPool rows diffby ∧ id2 ∈ nullPool rows diffby ∧
      ∀ c ∈ diffby, ∃ v1 v2 : Val,
        nrowAt rows id1 c = some v1 ∧ nrowAt rows id2 c = some v2 ∧
          v1 ≠ v2 := by
  have hpred : validNullPair rows diffby (id1, id2) = true := List.find?_some h
  have hmemmap := List.mem_of_find?_eq_some h
  unfold validNullPair at hpred
  rw [Bool.and_eq_true] at hpred
  have hne : id1 ≠ id2 := of_decide_eq_true hpred.1
  have hvals : ∀ c ∈ diffby, ∃ v1 v2 : Val,
      nrowAt rows id1 c = some v1 ∧ nrowAt rows id2 c = some v2 ∧ v1 ≠ v2 := by
    intro c hc
    have hcheck := List.all_eq_true.mp hpred.2 c hc
    cases ha : nrowAt rows id1 c with
    | none =>
      rw [ha] at hcheck
      cases hb : nrowAt rows id2 c with
      | none => rw [hb] at hcheck; cases hcheck
      | some b => rw [hb] at hcheck; cases hcheck
    | some a =>
      cases hb : nrowAt rows id2 c with
      | none => rw [ha, hb] at hcheck; cases hcheck
      | some b =>
        rw [ha, hb] at hcheck
        exact ⟨a, b, rfl, rfl, of_decide_eq_true hcheck⟩
  rcases List.mem_map.mp hmemmap with ⟨dr, _, heq⟩
  by_cases hpool : nullPool rows diffby = []
  · rw [hpool] at heq
    simp only [List.getD_nil, List.length_nil] at heq
    cases heq
    exact absurd rfl hne
  · have hlen : 0 < (nullPool rows diffby).length := List.length_pos.mpr hpool
    cases heq
    refine ⟨hne, ?_, ?_, hvals⟩
    · rw [List.getD_eq_getElem _ _ (Nat.mod_lt _ hlen)]
      exact List.getElem_mem _
    · rw [List.getD_eq_getElem _ _ (Nat.mod_lt _ hlen)]
      exact List.getElem_mem _

/-- Witness for C4: a concrete three-row dataset (one row fully missing in
the requested column), one draw, and the returned pair (0, 1). -/
theorem sample_null_pair_valid_witness :
    (0 : Nat) ≠ 1 ∧
    0 ∈ nullPool [fun _ => some 1, fun _ => some 2, fun _ => none] ["x"] ∧
    1 ∈ nullPool [fun _ => some 1, fun _ => some 2, fun _ => none] ["x"] ∧
    ∀ c ∈ ["x"], ∃ v1 v2 : Val,
      nrowAt [fun _ => some 1, fun _ => some 2, fun _ => none] 0 c = some v1 ∧
      nrowAt [fun _ => some 1, fun _ => some 2, fun _ => none] 1 c = some v2 ∧
        v1 ≠ v2 :=
  sample_null_pair_valid [fun _ => some 1, fun _ => some 2, fun _ => none]
    ["x"] [(0, 1)] 0 1 (by decide)

/-- C5: for a row-wise batch operation (`op = zipWith f`), the result of
`pairwise_indexed` does not depend on the (positive) batch size, and on a
nonempty pair list it is exactly the direct per-pair computation `f` applied
to the feature rows of each pair, in the original pair order. -/
theorem pairwise_indexed_batch_invariant (α β : Type) [Inhabited α]
    (feats : List α) (pair_ix : List (Nat × Nat))
    (op : List α → List α → List β) (f : α → α → β)
    (hop : ∀ xs ys, op xs ys = List.zipWith f xs ys)
    (bs bs2 : Nat) (hbs : 1 ≤ bs) (hbs2 : 1 ≤ bs2) :
    pairwise_indexed feats pair_ix op bs =
      pairwise_indexed feats pair_ix op bs2 ∧
    (1 ≤ pair_ix.length →
      pairwise_indexed feats pair_ix op bs = .ok (pair_ix.map
        (fun p => f (feats.getD p.1 default) (feats.getD p.2 default)))) := by
  have hopeq : op = fun xs ys => List.zipWith f xs ys := by
    funext xs ys
    exact hop xs ys
  subst hopeq
  rw [pairwise_indexed_rowwise feats pair_ix f bs hbs,
    pairwise_indexed_rowwise feats pair_ix f bs2 hbs2]
  refine ⟨rfl, ?_⟩
  intro hM
  rw [if_neg ?_]
  intro hcontr
  rw [List.isEmpty_iff] at hcontr
  rw [hcontr] at hM
  simp at hM

/-- Witness for C5 at concrete features, pairs, a row-wise sum operation,
and batch sizes 2 and 5. -/
theorem pairwise_indexed_batch_invariant_witness :
    (pairwise_indexed ([3, 7] : List Nat) [(0, 1), (1, 0), (1, 1)]
        (fun xs ys => List.zipWith (fun a b => a + b) xs ys) 2 =
      pairwise_indexed ([3, 7] : List Nat) [(0, 1), (1, 0), (1, 1)]
        (fun xs ys => List.zipWith (fun a b => a + b) xs ys) 5) ∧
    (1 ≤ ([(0, 1), (1, 0), (1, 1)] : List (Nat × Nat)).length →
      pairwise_indexed ([3, 7] : List Nat) [(0, 1), (1, 0), (1, 1)]
        (fun xs ys => List.zipWith (fun a b => a + b) xs ys) 2 =
        .ok ([(0, 1), (1, 0), (1, 1)].map (fun p =>
          ([3, 7] : List Nat).getD p.1 default +
            ([3, 7] : List Nat).getD p.2 default))) :=
  pairwise_indexed_batch_invariant Nat Nat [3, 7] [(0, 1), (1, 0), (1, 1)]
    (fun xs ys => List.zipWith (fun a b => a + b) xs ys) (fun a b => a + b)
    (fun _ _ => rfl) 2 5 (by decide) (by decide)

/-- C6: a groupby/diffby request with a non-empty intersection always raises
the configuration error naming the constraint, for every dataset — the check
happens before any index or partition work, so the result does not depend on
the dataset at all — and never silently proceeds. -/
theorem get_all_pairs_disjoint_error (groupby diffby : List Col)
    (h : ∃ c, c ∈ groupby ∧ c ∈ diffby) :
    ∀ rows : List Row, get_all_pairs rows groupby diffby =
      .error "groupby and diffby must be disjoint lists" := by
  intro rows
  unfold get_all_pairs
  rcases h with ⟨c, hg, hd⟩
  have htrue : groupby.any (fun c => diffby.contains c) = true :=
    List.any_eq_true.mpr ⟨c, hg, by simpa using hd⟩
  rw [if_pos htrue]

/-- Witness for C6 mirroring the repository test: groupby 'c' overlapping
diffby ['w', 'c']. -/
theorem get_all_pairs_disjoint_error_witness :
    get_all_pairs [fun _ => 1] ["c"] ["w", "c"] =
      .error "groupby and diffby must be disjoint lists" :=
  get_all_pairs_disjoint_error ["c"] ["w", "c"]
    ⟨"c", by decide, by decide⟩ [fun _ => 1]

/-- C7: `pairwise_corr` never fails on a zero-variance row: whenever row k
of either input has all-equal feature values, the function still returns a
full-length score list and that row's score is a division with denominator
0 — the real-number embedding of the IEEE `0/0 = NaN`, a value rather than a
failure — and `pairwise_indexed` applied to `pairwise_corr` propagates every
such score as an entry of a normally returned sequence, never as a
failure. -/
theorem pairwise_corr_zero_variance (x y : List (List ℝ)) (k : Nat)
    (hx : k < x.length) (hy : k < y.length)
    (hvar : (∃ c, ∀ v ∈ x.getD k [], v = c) ∨
      (∃ c, ∀ v ∈ y.getD k [], v = c)) :
    (pairwise_corr x y).length = min x.length y.length ∧
    Real.sqrt (sumSq (centered (x.getD k [])) *
      sumSq (centered (y.getD k []))) = 0 ∧
    (pairwise_corr x y).getD k 0 =
      dotRow (centered (x.getD k [])) (centered (y.getD k [])) / 0 ∧
    ∀ (feats : List (List ℝ)) (pair_ix : List (Nat × Nat)) (bs : Nat),
      1 ≤ bs → 1 ≤ pair_ix.length →
      pairwise_indexed feats pair_ix pairwise_corr bs = .ok (pair_ix.map
        (fun p => corrRow (feats.getD p.1 default) (feats.getD p.2 default))) := by
  have hsqrt : Real.sqrt (sumSq (centered (x.getD k [])) *
      sumSq (centered (y.getD k []))) = 0 := by
    rcases hvar with ⟨c, hconst⟩ | ⟨c, hconst⟩
    · rw [sumSq_centered_eq_zero _ c hconst, zero_mul, Real.sqrt_zero]
    · rw [sumSq_centered_eq_zero _ c hconst, mul_zero, Real.sqrt_zero]
  refine ⟨?_, hsqrt, ?_, ?_⟩
  · unfold pairwise_corr
    exact List.length_zipWith corrRow x y
  · unfold pairwise_corr
    rw [getD_zipWith corrRow x y k hx hy 0 [] []]
    unfold corrRow
    rw [hsqrt]
  · intro feats pair_ix bs hbs hM
    have hpc : pairwise_corr = fun xs ys => List.zipWith corrRow xs ys := rfl
    rw [hpc, pairwise_indexed_rowwise feats pair_ix corrRow bs hbs]
    rw [if_neg ?_]
    intro hcontr
    rw [List.isEmpty_iff] at hcontr
    rw [hcontr] at hM
    simp at hM

/-- Witness for C7 on a concrete batch whose zero-variance row sits in the
second input (the y-side case), with the propagation conjunct specialized to
a concrete `pairwise_indexed` call over the same rows. -/
theorem pairwise_corr_zero_variance_witness :
    (pairwise_corr [[1, 3]] [[2, 2]]).length =
      min ([[1, 3]] : List (List ℝ)).length ([[2, 2]] : List (List ℝ)).length ∧
    Real.sqrt (sumSq (centered (([[1, 3]] : List (List ℝ)).getD 0 [])) *
      sumSq (centered (([[2, 2]] : List (List ℝ)).getD 0 []))) = 0 ∧
    (pairwise_corr [[1, 3]] [[2, 2]]).getD 0 0 =
      dotRow (centered (([[1, 3]] : List (List ℝ)).getD 0 []))
        (centered (([[2, 2]] : List (List ℝ)).getD 0 [])) / 0 ∧
    pairwise_indexed ([[1, 3], [2, 2]] : List (List ℝ)) [(0, 1)]
      pairwise_corr 2 = .ok ([(0, 1)].map (fun p =>
        corrRow (([[1, 3], [2, 2]] : List (List ℝ)).getD p.1 default)
          (([[1, 3], [2, 2]] : List (List ℝ)).getD p.2 default))) := by
  have h := pairwise_corr_zero_variance [[1, 3]] [[2, 2]] 0
    (by decide) (by decide)
    (Or.inr ⟨2, by intro v hv; simpa [List.getD_cons_zero] using hv⟩)
  exact ⟨h.1, h.2.1, h.2.2.1,
    h.2.2.2 [[1, 3], [2, 2]] [(0, 1)] 2 (by decide) (by decide)⟩

/-- C8: on an empty pair-index array `pairwise_indexed` never returns a
score sequence: for every positive batch size the empty batch list makes the
final concatenation fail, and for batch size 0 the range step fails, so the
call fails for every feature matrix, scoring function, and batch size. -/
theorem pairwise_indexed_empty_fails (α β : Type) [Inhabited α]
    (feats : List α) (op : List α → List α → List β) :
    (∀ bs, 1 ≤ bs → pairwise_indexed feats ([] : List (Nat × Nat)) op bs =
      .error "need at least one array to concatenate") ∧
    ∀ bs, (pairwise_indexed feats ([] : List (Nat × Nat)) op bs).isOk
      = false := by
  have hkey : ∀ bs, 1 ≤ bs →
      pairwise_indexed feats ([] : List (Nat × Nat)) op bs =
        .error "need at least one array to concatenate" := by
    intro bs hbs
    unfold pairwise_indexed
    rw [if_neg (by omega)]
    have hemp : (batchResults feats ([] : List (Nat × Nat)) op bs).isEmpty
        = true := by
      rw [batchResults_isEmpty feats [] op bs hbs]
      rfl
    rw [if_pos hemp]
  refine ⟨hkey, fun bs => ?_⟩
  by_cases hbs : bs = 0
  · subst hbs
    unfold pairwise_indexed
    rw [if_pos rfl]
    rfl
  · rw [hkey bs (by omega)]
    rfl

/-- Witness for C8 at a concrete feature list, operation, and batch size. -/
theorem pairwise_indexed_empty_fails_witness :
    pairwise_indexed ([5] : List Nat) ([] : List (Nat × Nat))
      (fun xs ys => List.zipWith (fun a b => a * b) xs ys) 3 =
      .error "need at least one array to concatenate" :=
  (pairwise_indexed_empty_fails Nat Nat [5]
    (fun xs ys => List.zipWith (fun a b => a * b) xs ys)).1 3 (by decide)

/-- C9: `pairwise_corr` is symmetric in its two batch arguments: the
centered row-wise product and the product of the two centered sums of
squares are both commutative in x and y. -/
theorem pairwise_corr_comm (x y : List (List ℝ))
    (hlen : x.length = y.length) :
    pairwise_corr x y = pairwise_corr y x := by
  unfold pairwise_corr
  exact List.zipWith_comm_of_comm corrRow corrRow_comm x y

/-- Witness for C9 on a concrete equal-shaped pair of batches. -/
theorem pairwise_corr_comm_witness :
    ([[1, 2]] : List (List ℝ)).length = ([[2, 1]] : List (List ℝ)).length ∧
    pairwise_corr [[1, 2]] [[2, 1]] = pairwise_corr [[2, 1]] [[1, 2]] :=
  ⟨by decide, pairwise_corr_comm [[1, 2]] [[2, 1]] (by decide)⟩

/-- C10: `pairwise_cosine` is invariant under positive row scaling of its
first argument: with no zero rows and c > 0, scaling every x-row by c leaves
every score unchanged — the score depends only on row directions, since both
inputs are L2-normalized row-wise before the dot product. -/
theorem pairwise_cosine_scale_invariant (x y : List (List ℝ)) (c : ℝ)
    (hc : 0 < c) (hx : ∀ r ∈ x, sumSq r ≠ 0) (hy : ∀ r ∈ y, sumSq r ≠ 0) :
    pairwise_cosine (x.map (fun r => r.map (fun v => c * v))) y =
      pairwise_cosine x y := by
  unfold pairwise_cosine
  rw [List.zipWith_map_left]
  simp only [cosineRow_scale c hc]

/-- Witness for C10 with scale 2 on concrete nonzero one-element rows. -/
theorem pairwise_cosine_scale_invariant_witness :
    (0 : ℝ) < 2 ∧
    pairwise_cosine (([[1]] : List (List ℝ)).map
      (fun r => r.map (fun v => 2 * v))) [[1]] = pairwise_cosine [[1]] [[1]] :=
  ⟨by norm_num, pairwise_cosine_scale_invariant [[1]] [[1]] 2 (by norm_num)
    (by intro r hr; simp only [List.mem_singleton] at hr; subst hr;
        norm_num [sumSq])
    (by intro r hr; simp only [List.mem_singleton] at hr; subst hr;
        norm_num [sumSq])⟩

end Copairs
